import Mathlib

/-!
Shallow embedding of `src/index.js` of francis94c/flutter-localization-action.

JS values that can appear in a parsed ARB document are modelled by `Json`.
A parsed JS object (the ARB document) is an ordered association list
`List (String × Json)`; JS guarantees its keys are pairwise distinct, which
theorems carry as a `Nodup` hypothesis where it matters.

`JSON.parse` / `JSON.stringify` are platform primitives of the JS runtime,
not code of this repository; where a claim needs them they are passed as an
explicit function parameter (`jsonParse`).
-/

/-- JSON-compatible JS values (numbers abstracted to `Int`: no claim depends
on numeric representation). -/
inductive Json : Type
  | str (s : String)
  | num (n : Int)
  | bool (b : Bool)
  | null
  | arr (xs : List Json)
  | obj (kvs : List (String × Json))
deriving Repr

/-- The JS test `typeof v === 'string'` on a JS value. -/
def isString : Json → Bool
  | .str _ => true
  | _ => false

/-- Property read `doc[k]` on a JS object modelled as an ordered association list:
the first entry with key `k`, if any (`none` plays `undefined`). -/
def jsGet (doc : List (String × Json)) (k : String) : Option Json :=
  (doc.find? (fun kv => kv.1 = k)).map Prod.snd

/-- Line src/index.js:158 — `Object.values(arbData).filter(v => typeof v === 'string')`. -/
def originalValues (arbData : List (String × Json)) : List Json :=
  (arbData.map Prod.snd).filter isString

/-- Line src/index.js:159 — `Object.keys(arbData).filter(k => typeof arbData[k] === 'string')`.
`typeof undefined === 'string'` is `false`, hence the `none => false` arm. -/
def originalKeys (arbData : List (String × Json)) : List String :=
  (arbData.map Prod.fst).filter (fun k =>
    match jsGet arbData k with
    | some v => isString v
    | none => false)

/-- Lines src/index.js:9-15 — `chunkArray(array, size)`: the `for` loop advancing
`i` by `size` and pushing `array.slice(i, i + size)`, embedded with fuel
(`array.length` bounds the iteration count when `size > 0`; `size = 0` makes
the JS loop diverge and is outside every claim). -/
def chunkGo (size : Nat) : Nat → List String → List (List String)
  | _, [] => []
  | 0, _ => []
  | fuel + 1, a :: as => ((a :: as).take size) :: chunkGo size fuel ((a :: as).drop size)

def chunkArray (array : List String) (size : Nat) : List (List String) :=
  chunkGo size array.length array

-- ## Document reassembly (src/index.js:115-122)

/-- JS property assignment `doc[k] = v` on an object: an existing key is
updated in place (iteration order preserved), a fresh key is appended. -/
def jsSet (doc : List (String × Json)) (k : String) (v : Json) : List (String × Json) :=
  if k ∈ doc.map Prod.fst then
    doc.map (fun kv => if kv.1 = k then (k, v) else kv)
  else doc ++ [(k, v)]

/-- One iteration of the `originalKeys.forEach((key, index) => ...)` body at
`src/index.js:116-122`.  `allTranslations.getD i Json.null` stands for
`allTranslations[index]`; the pipeline always calls it in range
(`allTranslations.length = originalKeys.length`), which the theorems
hypothesise, so the default is never reached there. -/
def rebuildStep (allTranslations : List Json) (targetLangCode : String)
    (acc : List (String × Json)) (i : Nat) (key : String) : List (String × Json) :=
  if key = "@@locale" then jsSet acc key (Json.str targetLangCode)
  else jsSet acc key (allTranslations.getD i Json.null)

def rebuildGo (tr : List Json) (lang : String) :
    List (String × Json) → Nat → List String → List (String × Json)
  | acc, _, [] => acc
  | acc, i, key :: ks => rebuildGo tr lang (rebuildStep tr lang acc i key) (i + 1) ks

/-- Lines src/index.js:115-122 — `const newArb = { ...arbData }` (a shallow copy,
the identity on our immutable model) followed by the `forEach` loop. -/
def rebuildArb (arbData : List (String × Json)) (keys : List String)
    (tr : List Json) (lang : String) : List (String × Json) :=
  rebuildGo tr lang arbData 0 keys


-- ## Response-text cleaning (src/index.js:23-36, parseJsonResponse)

/-- The ASCII whitespace of JS `\s` / `String.prototype.trim` that can occur
around a fenced payload (space, tab, LF, CR, VT, FF). -/
def jsWs (c : Char) : Bool :=
  c = ' ' || c = '\t' || c = '\n' || c = '\r' || c = '\x0b' || c = '\x0c'

/-- The JS `text.trim()` on both ends. -/
def trimBoth (l : List Char) : List Char :=
  ((l.dropWhile jsWs).reverse.dropWhile jsWs).reverse

/-- The three backticks opening and closing a fenced code block. -/
def fenceTicks : List Char := "```".toList

/-- The optional `json` language tag after the opening fence. -/
def jsonTag : List Char := "json".toList

/-- The closing-fence part of the regex `\n?``` $`: succeeds when `l` ends in
three backticks and yields what precedes them (the single optional `\n` and
any other whitespace in front of the closing fence are removed by the
`match[1].trim()` that always follows, see `cleanFence`). -/
def dropFenceSuffix (l : List Char) : Option (List Char) :=
  if l.drop (l.length - 3) = fenceTicks ∧ 3 ≤ l.length then
    some (l.take (l.length - 3))
  else none

/-- Lines src/index.js:23-36 — trim, then strip one surrounding code fence when
the anchored regex `` ^```(?:json)?\s*\n?([\s\S]*?)\n?```$ `` matches, and
trim the captured group.  Because the final `$`-anchored `` ``` `` fixes the
group's end and `match[1].trim()` removes every whitespace the paddings
`\s*\n?` / `\n?` could have absorbed, a successful match yields exactly the
trimmed text between the fence markers (after the greedily consumed `json`
tag); on no match the trimmed input is parsed as is. -/
def cleanFence (text : List Char) : List Char :=
  let t := trimBoth text
  if t.take 3 = fenceTicks then
    let r0 := t.drop 3
    let m := if r0.take 4 = jsonTag then r0.drop 4 else r0
    match dropFenceSuffix m with
    | some inner => trimBoth inner
    | none => t
  else t

/-- Lines src/index.js:23-36 — the whole `parseJsonResponse`: clean, then
`JSON.parse` (a JS-runtime primitive, passed in as `jsonParse`; `none`
models its SyntaxError throw). -/
def parseJsonResponse (jsonParse : List Char → Option Json) (text : List Char) :
    Option Json :=
  jsonParse (cleanFence text)


-- ## Batch translation attempt (src/index.js:59-67) and retry (src/index.js:69-79)

/-- Constants of src/index.js:4-6. -/
def BATCH_SIZE : Nat := 50

def MAX_RETRIES : Nat := 3

def RETRY_DELAY : Nat := 2000

/-- Errors thrown inside the `try` of src/index.js:40-67; every one of them
reaches the `catch` at line 69 and is retried there.  `parseErr` models the
SyntaxError of `JSON.parse`; `shape` the explicit throw of lines 62-64,
carrying the expected batch length and the parsed value's `.length` (`none`
renders the JS `undefined` produced when the value is not an array). -/
inductive TrError : Type
  | parseErr
  | shape (expected : Nat) (got : Option Nat)
deriving Repr, DecidableEq

/-- Lines src/index.js:62-64 — `!Array.isArray(translatedValues) ||
translatedValues.length !== batch.length` throws; otherwise the parsed
array is returned unchanged (line 67): its elements undergo no check. -/
def validateShape (v : Json) (batchLen : Nat) : Except TrError (List Json) :=
  match v with
  | .arr xs =>
    if xs.length = batchLen then .ok xs
    else .error (.shape batchLen (some xs.length))
  | _ => .error (.shape batchLen none)

/-- Line src/index.js:59 — `response.data.candidates[0]?.content?.parts?.[0]?.text
|| '[]'`: an absent text part (`none`) — and an empty text, JS-falsy `''` —
is replaced by the literal `'[]'` before any parsing happens. -/
def extractResponseText : Option (List Char) → List Char
  | none => "[]".toList
  | some s => if s = [] then "[]".toList else s

/-- One attempt body over the provider's (optional) response text,
src/index.js:59-67: default the text, strip fences and `JSON.parse` it
(`jsonParse`, the JS-runtime primitive; `none` = SyntaxError), then check
the shape. -/
def attemptOnce (jsonParse : List Char → Option Json) (respText : Option (List Char))
    (batchLen : Nat) : Except TrError (List Json) :=
  match jsonParse (cleanFence (extractResponseText respText)) with
  | none => .error .parseErr
  | some v => validateShape v batchLen

/-- The message of the fatal throw at src/index.js:77. -/
def batchFailMsg (batchNumber totalBatches : Nat) (lastMsg : String) : String :=
  "[Batch " ++ toString batchNumber ++ "/" ++ toString totalBatches ++
    "] Failed after " ++ toString MAX_RETRIES ++ " retries: " ++ lastMsg

/-- Lines src/index.js:39-80 — `translateBatch` with its retry recursion, over an
abstract stream of attempt outcomes (`attempt k` is what the try-body of
lines 41-67 produces on the call with `retryCount = k`: the validated
translations, or the thrown error's message).  The result pairs the ordered
list of `sleep` durations performed at line 74 with the final outcome. -/
def translateBatchFrom (attempt : Nat → Except String (List Json))
    (batchNumber totalBatches : Nat) (retryCount : Nat) :
    List Nat × Except String (List Json) :=
  match attempt retryCount with
  | .ok v => ([], .ok v)
  | .error e =>
    if h : retryCount < MAX_RETRIES then
      let rest := translateBatchFrom attempt batchNumber totalBatches (retryCount + 1)
      (RETRY_DELAY * (retryCount + 1) :: rest.1, rest.2)
    else ([], .error (batchFailMsg batchNumber totalBatches e))
termination_by MAX_RETRIES - retryCount
decreasing_by omega


-- ## Extraction lemmas

theorem jsGet_cons (k₀ : String) (v₀ : Json) (rest : List (String × Json)) (k : String) :
    jsGet ((k₀, v₀) :: rest) k = if k₀ = k then some v₀ else jsGet rest k := by
  simp only [jsGet, List.find?]
  by_cases h : k₀ = k <;> simp [h]

/-- With pairwise-distinct keys, the lookup-based key filter of
`src/index.js:159` selects exactly the keys of the string-valued entries,
in document order. -/
theorem originalKeys_eq_filter (arbData : List (String × Json))
    (hnd : (arbData.map Prod.fst).Nodup) :
    originalKeys arbData = (arbData.filter (fun kv => isString kv.2)).map Prod.fst := by
  induction arbData with
  | nil => rfl
  | cons hd tl ih =>
    obtain ⟨k₀, v₀⟩ := hd
    simp only [List.map_cons, List.nodup_cons] at hnd
    obtain ⟨hk₀, hnd'⟩ := hnd
    have htail : ∀ k, k ∈ tl.map Prod.fst →
        jsGet ((k₀, v₀) :: tl) k = jsGet tl k := by
      intro k hk
      rw [jsGet_cons]
      have : k₀ ≠ k := fun h => hk₀ (h ▸ hk)
      simp [this]
    have hfilter_tl :
        (tl.map Prod.fst).filter (fun k =>
          match jsGet ((k₀, v₀) :: tl) k with
          | some v => isString v
          | none => false) =
        (tl.map Prod.fst).filter (fun k =>
          match jsGet tl k with
          | some v => isString v
          | none => false) := by
      apply List.filter_congr
      intro k hk
      rw [htail k hk]
    have hhead : (match jsGet ((k₀, v₀) :: tl) k₀ with
        | some v => isString v
        | none => false) = isString v₀ := by
      rw [jsGet_cons]
      simp
    simp only [originalKeys, List.map_cons, List.filter_cons] at *
    rw [hhead, hfilter_tl, ih hnd']
    by_cases hs : isString v₀ <;> simp [hs]

/-- The value filter of `src/index.js:158` selects exactly the values of the
string-valued entries, in document order (no key-distinctness needed). -/
theorem originalValues_eq_filter (arbData : List (String × Json)) :
    originalValues arbData = (arbData.filter (fun kv => isString kv.2)).map Prod.snd := by
  induction arbData with
  | nil => rfl
  | cons hd tl ih =>
    simp only [originalValues, List.map_cons, List.filter_cons] at *
    by_cases hs : isString hd.2 <;> simp [hs, ih]

/-- Looking a member entry's key up in a Nodup-keyed document returns that
entry's value. -/
theorem jsGet_of_mem (doc : List (String × Json)) (k : String) (v : Json)
    (hmem : (k, v) ∈ doc) (hnd : (doc.map Prod.fst).Nodup) :
    jsGet doc k = some v := by
  induction doc with
  | nil => cases hmem
  | cons hd tl ih =>
    obtain ⟨k₀, v₀⟩ := hd
    simp only [List.map_cons, List.nodup_cons] at hnd
    rw [jsGet_cons]
    rcases List.mem_cons.mp hmem with heq | htl
    · obtain ⟨h1, h2⟩ := Prod.mk.injEq .. ▸ heq
      cases heq
      simp
    · have : k₀ ≠ k := by
        intro h
        exact hnd.1 (h ▸ List.mem_map_of_mem Prod.fst htl)
      simp only [this, if_false]
      exact ih htl hnd.2

-- ## Chunking lemmas (src/index.js:9-15)

theorem chunkGo_nil (size fuel : Nat) : chunkGo size fuel [] = [] := by
  cases fuel <;> rfl

theorem chunkGo_join (size : Nat) (hsize : 0 < size) :
    ∀ (fuel : Nat) (l : List String), l.length ≤ fuel → (chunkGo size fuel l).flatten = l := by
  intro fuel
  induction fuel with
  | zero =>
    intro l hl
    have : l = [] := List.length_eq_zero.mp (Nat.le_zero.mp hl)
    subst this
    rfl
  | succ fuel ih =>
    intro l hl
    cases l with
    | nil => rfl
    | cons a as =>
      simp only [chunkGo, List.flatten_cons]
      rw [ih ((a :: as).drop size) ?_, List.take_append_drop]
      have hlen : ((a :: as).drop size).length = (a :: as).length - size :=
        List.length_drop size (a :: as)
      simp only [List.length_cons] at hl hlen
      omega

theorem chunkGo_mem_length_le (size : Nat) :
    ∀ (fuel : Nat) (l : List String) (b : List String),
      b ∈ chunkGo size fuel l → b.length ≤ size := by
  intro fuel
  induction fuel with
  | zero =>
    intro l b hb
    cases l <;> simp [chunkGo] at hb
  | succ fuel ih =>
    intro l b hb
    cases l with
    | nil => simp [chunkGo] at hb
    | cons a as =>
      simp only [chunkGo, List.mem_cons] at hb
      rcases hb with hb | hb
      · subst hb
        simp
      · exact ih _ b hb

theorem chunkGo_ne_nil (size : Nat) (fuel : Nat) (a : String) (as : List String)
    (hfuel : 0 < fuel) : chunkGo size fuel (a :: as) ≠ [] := by
  cases fuel with
  | zero => omega
  | succ fuel => simp [chunkGo]

theorem chunkGo_dropLast_length (size : Nat) (hsize : 0 < size) :
    ∀ (fuel : Nat) (l : List String) (b : List String),
      l.length ≤ fuel → b ∈ (chunkGo size fuel l).dropLast → b.length = size := by
  intro fuel
  induction fuel with
  | zero =>
    intro l b hl hb
    have : l = [] := List.length_eq_zero.mp (Nat.le_zero.mp hl)
    subst this
    simp [chunkGo] at hb
  | succ fuel ih =>
    intro l b hl hb
    cases l with
    | nil => simp [chunkGo] at hb
    | cons a as =>
      simp only [chunkGo] at hb
      cases hdrop : (a :: as).drop size with
      | nil =>
        rw [hdrop, chunkGo_nil] at hb
        simp at hb
      | cons d ds =>
        have hne : chunkGo size fuel ((a :: as).drop size) ≠ [] := by
          rw [hdrop]
          apply chunkGo_ne_nil
          have hlen : ((a :: as).drop size).length = (a :: as).length - size :=
            List.length_drop size (a :: as)
          rw [hdrop] at hlen
          simp only [List.length_cons] at hl hlen
          omega
        rw [List.dropLast_cons_of_ne_nil hne, List.mem_cons] at hb
        rcases hb with hb | hb
        · subst hb
          have hge : size ≤ (a :: as).length := by
            by_contra hlt
            push_neg at hlt
            have : (a :: as).drop size = [] := List.drop_eq_nil_of_le (Nat.le_of_lt hlt)
            rw [this] at hdrop
            cases hdrop
          simpa using List.length_take_of_le hge
        · apply ih ((a :: as).drop size) b ?_ hb
          have hlen : ((a :: as).drop size).length = (a :: as).length - size :=
            List.length_drop size (a :: as)
          simp only [List.length_cons] at hl hlen
          omega

theorem jsGet_jsSet_same (doc : List (String × Json)) (k : String) (v : Json) :
    jsGet (jsSet doc k v) k = some v := by
  induction doc with
  | nil => simp [jsSet, jsGet]
  | cons hd tl ih =>
    obtain ⟨k₀, v₀⟩ := hd
    by_cases hk : k₀ = k
    · subst hk
      simp only [jsSet, List.map_cons, List.mem_cons, true_or, if_true, if_pos rfl]
      rw [jsGet_cons]
      simp
    · by_cases hmem : k ∈ tl.map Prod.fst
      · simp only [jsSet, List.map_cons, List.mem_cons, hmem, or_true, if_true, hk, if_false]
        rw [jsGet_cons]
        simp only [hk, if_false]
        have := ih
        simp only [jsSet, hmem, if_true] at this
        exact this
      · have hnot : ¬ k ∈ ((k₀, v₀) :: tl).map Prod.fst := by
          simp only [List.map_cons, List.mem_cons]
          push_neg
          exact ⟨fun h => hk h.symm, hmem⟩
        simp only [jsSet, hnot, if_false, List.cons_append]
        rw [jsGet_cons]
        simp only [hk, if_false]
        have := ih
        simp only [jsSet, hmem, if_false] at this
        exact this

theorem jsGet_mapUpdate (tl : List (String × Json)) (k : String) (v : Json) (k' : String)
    (h : k' ≠ k) :
    jsGet (tl.map (fun kv => if kv.1 = k then (k, v) else kv)) k' = jsGet tl k' := by
  induction tl with
  | nil => rfl
  | cons hd tl ih =>
    obtain ⟨k₀, v₀⟩ := hd
    by_cases hk : k₀ = k
    · subst hk
      simp only [List.map_cons, if_pos rfl]
      rw [jsGet_cons, jsGet_cons]
      have h1 : k₀ ≠ k' := fun he => h he.symm
      simp [h1, ih]
    · simp only [List.map_cons, if_neg hk]
      rw [jsGet_cons, jsGet_cons]
      by_cases h2 : k₀ = k' <;> simp [h2, ih]

theorem jsGet_jsSet_other (doc : List (String × Json)) (k : String) (v : Json)
    (k' : String) (h : k' ≠ k) :
    jsGet (jsSet doc k v) k' = jsGet doc k' := by
  by_cases hmem : k ∈ doc.map Prod.fst
  · simp only [jsSet, hmem, if_true]
    exact jsGet_mapUpdate doc k v k' h
  · simp only [jsSet, hmem, if_false, jsGet, List.find?_append]
    have : List.find? (fun kv => kv.1 = k') [(k, v)] = none := by
      simp [List.find?, h.symm]
    rw [this]
    simp [Option.orElse]

/-- Frame: the `forEach` loop never touches a key outside `keys`. -/
theorem rebuildGo_frame (tr : List Json) (lang : String) :
    ∀ (keys : List String) (i : Nat) (acc : List (String × Json)) (k : String),
      k ∉ keys → jsGet (rebuildGo tr lang acc i keys) k = jsGet acc k := by
  intro keys
  induction keys with
  | nil => intro i acc k _; rfl
  | cons key ks ih =>
    intro i acc k hk
    simp only [List.mem_cons] at hk
    push_neg at hk
    simp only [rebuildGo]
    rw [ih (i + 1) _ k hk.2]
    simp only [rebuildStep]
    by_cases hl : key = "@@locale"
    · subst hl
      simp only [if_pos rfl]
      exact jsGet_jsSet_other _ _ _ _ hk.1
    · simp only [if_neg hl]
      exact jsGet_jsSet_other _ _ _ _ hk.1

/-- The loop writes `targetLangCode` at the reserved locale key whenever that
key occurs in `keys`. -/
theorem rebuildGo_locale (tr : List Json) (lang : String) :
    ∀ (keys : List String) (i : Nat) (acc : List (String × Json)),
      keys.Nodup → "@@locale" ∈ keys →
      jsGet (rebuildGo tr lang acc i keys) "@@locale" = some (Json.str lang) := by
  intro keys
  induction keys with
  | nil => intro i acc _ hmem; cases hmem
  | cons key ks ih =>
    intro i acc hnd hmem
    simp only [List.nodup_cons] at hnd
    rcases List.mem_cons.mp hmem with heq | htl
    · subst heq
      simp only [rebuildGo, rebuildStep, if_pos rfl]
      rw [rebuildGo_frame tr lang ks (i + 1) _ _ hnd.1]
      exact jsGet_jsSet_same _ _ _
    · simp only [rebuildGo]
      exact ih (i + 1) _ hnd.2 htl

/-- The loop writes `tr[i0 + j]` at the `j`-th key when that key is not the
reserved locale key. -/
theorem rebuildGo_write (tr : List Json) (lang : String) :
    ∀ (keys : List String) (i0 : Nat) (acc : List (String × Json)) (j : Nat)
      (hj : j < keys.length),
      keys.Nodup → keys.get ⟨j, hj⟩ ≠ "@@locale" →
      jsGet (rebuildGo tr lang acc i0 keys) (keys.get ⟨j, hj⟩) =
        some (tr.getD (i0 + j) Json.null) := by
  intro keys
  induction keys with
  | nil => intro i0 acc j hj; cases hj
  | cons key ks ih =>
    intro i0 acc j hj hnd hne
    simp only [List.nodup_cons] at hnd
    cases j with
    | zero =>
      have hkey : (key :: ks).get ⟨0, hj⟩ = key := rfl
      rw [hkey] at hne ⊢
      simp only [rebuildGo, rebuildStep, if_neg hne]
      rw [rebuildGo_frame tr lang ks (i0 + 1) _ _ hnd.1]
      rw [jsGet_jsSet_same]
      simp
    | succ j =>
      have hkey : (key :: ks).get ⟨j + 1, hj⟩ = ks.get ⟨j, Nat.lt_of_succ_lt_succ hj⟩ := rfl
      rw [hkey] at hne ⊢
      simp only [rebuildGo]
      rw [show i0 + (j + 1) = (i0 + 1) + j from by omega]
      exact ih (i0 + 1) _ j (Nat.lt_of_succ_lt_succ hj) hnd.2 hne

theorem dropWhile_append_of_ne {p : Char → Bool} (l b : List Char)
    (h : l.dropWhile p ≠ []) : (l ++ b).dropWhile p = l.dropWhile p ++ b := by
  rw [List.dropWhile_append]
  simp [List.isEmpty_iff, h]

/-- Trimming ignores all-whitespace padding on either side. -/
theorem trimBoth_sandwich (a l b : List Char)
    (ha : ∀ c ∈ a, jsWs c) (hb : ∀ c ∈ b, jsWs c) :
    trimBoth (a ++ l ++ b) = trimBoth l := by
  unfold trimBoth
  rw [List.append_assoc, List.dropWhile_append_of_pos ha]
  by_cases hl : l.dropWhile jsWs = []
  · have hbnil : b.dropWhile jsWs = [] := by
      rw [List.dropWhile_eq_nil_iff]
      exact fun c hc => hb c hc
    rw [List.dropWhile_append, hl]
    simp [hbnil, hl]
  · rw [dropWhile_append_of_ne l b hl, List.reverse_append,
      List.dropWhile_append_of_pos (by simpa using hb)]

/-- A list opening and closing with the fence markers is already trimmed. -/
theorem trimBoth_fenced (mid : List Char) :
    trimBoth (fenceTicks ++ mid ++ fenceTicks) = fenceTicks ++ mid ++ fenceTicks := by
  unfold trimBoth
  have h1 : fenceTicks.dropWhile jsWs = fenceTicks := by decide
  have h2 : fenceTicks.dropWhile jsWs ≠ [] := by decide
  have h3 : fenceTicks.reverse = fenceTicks := by decide
  rw [List.append_assoc, dropWhile_append_of_ne fenceTicks (mid ++ fenceTicks) h2, h1,
    List.reverse_append, List.reverse_append, h3, List.append_assoc,
    dropWhile_append_of_ne fenceTicks (mid.reverse ++ fenceTicks) h2, h1]
  simp [List.reverse_append, h3, List.append_assoc]

theorem dropFenceSuffix_append (pre : List Char) :
    dropFenceSuffix (pre ++ fenceTicks) = some pre := by
  unfold dropFenceSuffix
  have hlen : (pre ++ fenceTicks).length = pre.length + 3 := by
    simp [fenceTicks]
  have hsub : (pre ++ fenceTicks).length - 3 = pre.length := by omega
  rw [hsub, List.drop_left' rfl, List.take_left' rfl]
  simp [fenceTicks]

/-- When the trimmed text does not open with a fence marker (every JSON
payload: no JSON value's text starts with a backtick) the cleaning is just
the trim. -/
theorem cleanFence_no_fence (s : List Char) (h : (trimBoth s).take 3 ≠ fenceTicks) :
    cleanFence s = trimBoth s := by
  simp only [cleanFence, if_neg h]

theorem cleanFence_wrapped (tag s ws1 ws2 : List Char)
    (htag : tag = [] ∨ tag = jsonTag)
    (hws1 : ∀ c ∈ ws1, jsWs c) (hws2 : ∀ c ∈ ws2, jsWs c) :
    cleanFence (ws1 ++ (fenceTicks ++ (tag ++ '\n' :: (s ++ '\n' :: fenceTicks))) ++ ws2)
      = trimBoth s := by
  have hmid : fenceTicks ++ (tag ++ '\n' :: (s ++ '\n' :: fenceTicks))
      = fenceTicks ++ (tag ++ '\n' :: (s ++ ['\n'])) ++ fenceTicks := by
    simp [List.append_assoc]
  have htrim :
      trimBoth (ws1 ++ (fenceTicks ++ (tag ++ '\n' :: (s ++ '\n' :: fenceTicks))) ++ ws2)
        = fenceTicks ++ (tag ++ '\n' :: (s ++ '\n' :: fenceTicks)) := by
    rw [trimBoth_sandwich _ _ _ hws1 hws2, hmid, trimBoth_fenced, ← hmid]
  have htake : (fenceTicks ++ (tag ++ '\n' :: (s ++ '\n' :: fenceTicks))).take 3 = fenceTicks :=
    List.take_left' rfl
  have hdrop : (fenceTicks ++ (tag ++ '\n' :: (s ++ '\n' :: fenceTicks))).drop 3
      = tag ++ '\n' :: (s ++ '\n' :: fenceTicks) :=
    List.drop_left' rfl
  have hinner : trimBoth ('\n' :: (s ++ ['\n'])) = trimBoth s := by
    have hshape : (['\n'] : List Char) ++ s ++ ['\n'] = '\n' :: (s ++ ['\n']) := by simp
    rw [← hshape]
    exact trimBoth_sandwich _ _ _ (by decide) (by decide)
  have hm : ('\n' : Char) :: (s ++ '\n' :: fenceTicks)
      = ('\n' :: (s ++ ['\n'])) ++ fenceTicks := by simp
  simp only [cleanFence]
  rw [htrim, htake, if_pos rfl, hdrop]
  rcases htag with h | h
  · subst h
    simp only [List.nil_append]
    have hne : (('\n' :: (s ++ '\n' :: fenceTicks)).take 4) ≠ jsonTag := by
      intro hcontra
      have hform : ('\n' :: (s ++ '\n' :: fenceTicks)).take 4
          = '\n' :: (s ++ '\n' :: fenceTicks).take 3 := rfl
      rw [hform] at hcontra
      have hj : jsonTag = 'j' :: "son".toList := by decide
      rw [hj] at hcontra
      injection hcontra with h1 _
      exact absurd h1 (by decide)
    rw [if_neg hne, hm, dropFenceSuffix_append]
    exact hinner
  · subst h
    have htake4 : (jsonTag ++ '\n' :: (s ++ '\n' :: fenceTicks)).take 4 = jsonTag :=
      List.take_left' rfl
    have hdrop4 : (jsonTag ++ '\n' :: (s ++ '\n' :: fenceTicks)).drop 4
        = '\n' :: (s ++ '\n' :: fenceTicks) :=
      List.drop_left' rfl
    rw [htake4, if_pos rfl, hdrop4, hm, dropFenceSuffix_append]
    exact hinner

theorem translateBatchFrom_ok (attempt : Nat → Except String (List Json))
    (bn tb r : Nat) (v : List Json) (h : attempt r = .ok v) :
    translateBatchFrom attempt bn tb r = ([], .ok v) := by
  rw [translateBatchFrom, h]

theorem translateBatchFrom_retry (attempt : Nat → Except String (List Json))
    (bn tb r : Nat) (e : String) (h : attempt r = .error e) (hr : r < MAX_RETRIES) :
    translateBatchFrom attempt bn tb r =
      (RETRY_DELAY * (r + 1) :: (translateBatchFrom attempt bn tb (r + 1)).1,
        (translateBatchFrom attempt bn tb (r + 1)).2) := by
  rw [translateBatchFrom, h]
  simp [hr]

theorem translateBatchFrom_exhausted (attempt : Nat → Except String (List Json))
    (bn tb r : Nat) (e : String) (h : attempt r = .error e) (hr : ¬ r < MAX_RETRIES) :
    translateBatchFrom attempt bn tb r = ([], .error (batchFailMsg bn tb e)) := by
  rw [translateBatchFrom, h]
  simp [hr]

/-- Success on attempt `j ≤ MAX_RETRIES` after `j` failures: the failed
attempts each slept `RETRY_DELAY * (k + 1)` ms and the successful result is
returned as is. -/
theorem translateBatchFrom_success_schedule (attempt : Nat → Except String (List Json))
    (bn tb : Nat) (es : Nat → String) (v : List Json) :
    ∀ (n r : Nat), r + n ≤ MAX_RETRIES →
      (∀ k, r ≤ k → k < r + n → attempt k = .error (es k)) →
      attempt (r + n) = .ok v →
      translateBatchFrom attempt bn tb r =
        ((List.range' r n).map (fun k => RETRY_DELAY * (k + 1)), .ok v) := by
  intro n
  induction n with
  | zero =>
    intro r _ _ hok
    simp only [Nat.add_zero] at hok
    rw [translateBatchFrom_ok attempt bn tb r v hok]
    rfl
  | succ n ih =>
    intro r hle hfail hok
    have hr : r < MAX_RETRIES := by omega
    have hre : attempt r = .error (es r) := hfail r (Nat.le_refl r) (by omega)
    rw [translateBatchFrom_retry attempt bn tb r (es r) hre hr]
    have hrec := ih (r + 1) (by omega)
      (fun k hk1 hk2 => hfail k (by omega) (by omega))
      (by rw [show r + 1 + n = r + (n + 1) from by omega]; exact hok)
    rw [hrec]
    simp [List.range'_succ]

/-- All of attempts `0..MAX_RETRIES` failing: three sleeps then the fatal
error embedding the batch position and the last attempt's message. -/
theorem translateBatchFrom_exhaust_schedule (attempt : Nat → Except String (List Json))
    (bn tb : Nat) (es : Nat → String)
    (hfail : ∀ k, k ≤ MAX_RETRIES → attempt k = .error (es k)) :
    translateBatchFrom attempt bn tb 0 =
      ([RETRY_DELAY * 1, RETRY_DELAY * 2, RETRY_DELAY * 3],
        .error (batchFailMsg bn tb (es MAX_RETRIES))) := by
  rw [translateBatchFrom_retry attempt bn tb 0 (es 0) (hfail 0 (by decide)) (by decide),
    translateBatchFrom_retry attempt bn tb 1 (es 1) (hfail 1 (by decide)) (by decide),
    translateBatchFrom_retry attempt bn tb 2 (es 2) (hfail 2 (by decide)) (by decide),
    translateBatchFrom_exhausted attempt bn tb 3 (es 3) (hfail 3 (by decide)) (by decide)]
  rfl

-- ## Claims

/-- C1 — Alignment invariant of extraction: for every ResourceDocument (an
ordered JS object, so with pairwise-distinct keys), the extracted keys
sequence and the extracted values sequence (src/index.js:158-159) have the
same length, and looking `keys[i]` up in the document yields `values[i]`. -/
theorem claim_C1_extraction_alignment (arbData : List (String × Json))
    (hnd : (arbData.map Prod.fst).Nodup) :
    (originalKeys arbData).length = (originalValues arbData).length ∧
    ∀ (i : Nat) (hk : i < (originalKeys arbData).length)
      (hv : i < (originalValues arbData).length),
      jsGet arbData ((originalKeys arbData).get ⟨i, hk⟩) =
        some ((originalValues arbData).get ⟨i, hv⟩) := by
  constructor
  · rw [originalKeys_eq_filter arbData hnd, originalValues_eq_filter]
    simp
  · intro i hk hv
    have hk' := hk
    rw [originalKeys_eq_filter arbData hnd] at hk'
    have hkey : (originalKeys arbData).get ⟨i, hk⟩ =
        ((arbData.filter (fun kv => isString kv.2)).get ⟨i, by simpa using hk'⟩).1 := by
      have := originalKeys_eq_filter arbData hnd
      simp only [List.get_eq_getElem]
      rw [List.getElem_of_eq this hk, List.getElem_map]
    have hval : (originalValues arbData).get ⟨i, hv⟩ =
        ((arbData.filter (fun kv => isString kv.2)).get ⟨i, by simpa using hk'⟩).2 := by
      have := originalValues_eq_filter arbData
      simp only [List.get_eq_getElem]
      rw [List.getElem_of_eq this hv, List.getElem_map]
    rw [hkey, hval]
    set e := (arbData.filter (fun kv => isString kv.2)).get ⟨i, by simpa using hk'⟩ with he
    have hmem : e ∈ arbData.filter (fun kv => isString kv.2) := List.get_mem _ _ _
    have hmem' : e ∈ arbData := List.mem_of_mem_filter hmem
    have : (e.1, e.2) ∈ arbData := by rwa [Prod.mk.eta]
    exact jsGet_of_mem arbData e.1 e.2 this hnd

theorem claim_C1_extraction_alignment_witness :
    ((List.map Prod.fst [("a", Json.str "x"), ("m", Json.obj []), ("b", Json.str "y")]).Nodup) ∧
    (originalKeys [("a", Json.str "x"), ("m", Json.obj []), ("b", Json.str "y")]).length =
      (originalValues [("a", Json.str "x"), ("m", Json.obj []), ("b", Json.str "y")]).length := by
  refine ⟨by decide, ?_⟩
  exact (claim_C1_extraction_alignment
    [("a", Json.str "x"), ("m", Json.obj []), ("b", Json.str "y")] (by decide)).1

/-- C2 counterexample — the claim says extraction keeps exactly the entries
whose value is a string AND whose key is not `@@locale`, and that the locale
value is never among the extracted values; on
`[("@@locale", "en"), ("a", "x")]` the filters of src/index.js:158-159 keep
`@@locale` (its value is a string), so the keys are `["@@locale", "a"]`
(the claim predicts `["a"]`) and the locale value `"en"` is among the
values handed to the batch pipeline (the claim predicts it never is). -/
theorem claim_C2_extraction_selection_counterexample :
    originalKeys [("@@locale", Json.str "en"), ("a", Json.str "x")] = ["@@locale", "a"] ∧
    originalValues [("@@locale", Json.str "en"), ("a", Json.str "x")] =
      [Json.str "en", Json.str "x"] := by
  exact ⟨rfl, rfl⟩

/-- C2 amended — extraction keeps exactly the entries whose value is of
string type, regardless of key, in document order; in particular a
string-valued `@@locale` entry IS extracted and its value handed to the
batch pipeline (its translated result is then discarded at reassembly,
src/index.js:117-119). -/
theorem claim_C2_extraction_selection (arbData : List (String × Json))
    (hnd : (arbData.map Prod.fst).Nodup) :
    originalKeys arbData = (arbData.filter (fun kv => isString kv.2)).map Prod.fst ∧
    originalValues arbData = (arbData.filter (fun kv => isString kv.2)).map Prod.snd ∧
    (∀ c : String, jsGet arbData "@@locale" = some (Json.str c) →
      Json.str c ∈ originalValues arbData) := by
  refine ⟨originalKeys_eq_filter arbData hnd, originalValues_eq_filter arbData, ?_⟩
  intro c hget
  simp only [jsGet, Option.map_eq_some'] at hget
  obtain ⟨kv, hfind, hsnd⟩ := hget
  have hmem : kv ∈ arbData := List.mem_of_find?_eq_some hfind
  rw [originalValues_eq_filter]
  refine List.mem_map.mpr ⟨kv, List.mem_filter.mpr ⟨hmem, ?_⟩, hsnd⟩
  rw [hsnd]
  rfl

theorem claim_C2_extraction_selection_witness :
    ((List.map Prod.fst [("@@locale", Json.str "en"), ("a", Json.str "x")]).Nodup) ∧
    Json.str "en" ∈ originalValues [("@@locale", Json.str "en"), ("a", Json.str "x")] := by
  refine ⟨by decide, ?_⟩
  exact (claim_C2_extraction_selection
    [("@@locale", Json.str "en"), ("a", Json.str "x")] (by decide)).2.2 "en" rfl

/-- C3 counterexample — the claim quantifies over every source document
containing the reserved locale key; with `@@locale` bound to the non-string
value `1` the key is not extracted (src/index.js:158-159 filter on string
type), the `forEach` of src/index.js:116-122 never visits it, and the
rebuilt document still maps it to `1`, not to the target code `"fr"`. -/
theorem claim_C3_locale_override_counterexample :
    originalKeys [("@@locale", Json.num 1)] = [] ∧
    rebuildArb [("@@locale", Json.num 1)] (originalKeys [("@@locale", Json.num 1)]) [] "fr"
      = [("@@locale", Json.num 1)] ∧
    jsGet (rebuildArb [("@@locale", Json.num 1)]
        (originalKeys [("@@locale", Json.num 1)]) [] "fr") "@@locale"
      ≠ some (Json.str "fr") := by
  refine ⟨rfl, rfl, ?_⟩
  intro h
  have : Json.num 1 = Json.str "fr" := by
    have h' : some (Json.num 1) = some (Json.str "fr") := h
    injection h'
  cases this

/-- C3 amended — for every source document whose reserved locale key is
present WITH A STRING VALUE, and every target language code, the rebuilt
document (src/index.js:115-122) maps the locale key to exactly the target
language code, never to a provider-returned translation, while every other
extracted key at index `j` is overwritten with `translated[j]`. -/
theorem claim_C3_locale_override (arbData : List (String × Json)) (c : String)
    (tr : List Json) (lang : String)
    (hnd : (arbData.map Prod.fst).Nodup)
    (hloc : jsGet arbData "@@locale" = some (Json.str c))
    (hlen : tr.length = (originalKeys arbData).length) :
    jsGet (rebuildArb arbData (originalKeys arbData) tr lang) "@@locale"
      = some (Json.str lang) ∧
    ∀ (j : Nat) (hj : j < (originalKeys arbData).length),
      (originalKeys arbData).get ⟨j, hj⟩ ≠ "@@locale" →
      jsGet (rebuildArb arbData (originalKeys arbData) tr lang)
          ((originalKeys arbData).get ⟨j, hj⟩)
        = some (tr.getD j Json.null) := by
  have hkeysnd : (originalKeys arbData).Nodup := List.Nodup.filter _ hnd
  constructor
  · have hmem : "@@locale" ∈ originalKeys arbData := by
      simp only [jsGet, Option.map_eq_some'] at hloc
      obtain ⟨kv, hfind, hsnd⟩ := hloc
      have hpkv := List.find?_some hfind
      have hkey : kv.1 = "@@locale" := by simpa using hpkv
      have hmem' : kv ∈ arbData := List.mem_of_find?_eq_some hfind
      apply List.mem_filter.mpr
      refine ⟨hkey ▸ List.mem_map_of_mem Prod.fst hmem', ?_⟩
      rw [show jsGet arbData "@@locale" = some (Json.str c) from by
        simp only [jsGet, Option.map_eq_some']
        exact ⟨kv, hfind, hsnd⟩]
      rfl
    exact rebuildGo_locale tr lang (originalKeys arbData) 0 arbData hkeysnd hmem
  · intro j hj hne
    have := rebuildGo_write tr lang (originalKeys arbData) 0 arbData j hj hkeysnd hne
    rwa [Nat.zero_add] at this

theorem claim_C3_locale_override_witness :
    jsGet (rebuildArb [("@@locale", Json.str "en"), ("greeting", Json.str "Hello")]
        (originalKeys [("@@locale", Json.str "en"), ("greeting", Json.str "Hello")])
        [Json.str "ZZ", Json.str "Hola"] "fr") "@@locale" = some (Json.str "fr") ∧
    jsGet (rebuildArb [("@@locale", Json.str "en"), ("greeting", Json.str "Hello")]
        (originalKeys [("@@locale", Json.str "en"), ("greeting", Json.str "Hello")])
        [Json.str "ZZ", Json.str "Hola"] "fr")
      ((originalKeys [("@@locale", Json.str "en"), ("greeting", Json.str "Hello")]).get
        ⟨1, by decide⟩) = some ([Json.str "ZZ", Json.str "Hola"].getD 1 Json.null) := by
  refine ⟨?_, ?_⟩
  · exact (claim_C3_locale_override
      [("@@locale", Json.str "en"), ("greeting", Json.str "Hello")] "en"
      [Json.str "ZZ", Json.str "Hola"] "fr" (by decide) rfl rfl).1
  · exact (claim_C3_locale_override
      [("@@locale", Json.str "en"), ("greeting", Json.str "Hello")] "en"
      [Json.str "ZZ", Json.str "Hola"] "fr" (by decide) rfl rfl).2 1 (by decide) (by decide)

/-- C4 — Batching partition law (src/index.js:9-15): for positive `size`,
the in-order concatenation of the batches reconstructs `values`, each batch
has length at most `size`, every batch except possibly the last has length
exactly `size`, and empty input yields zero batches. -/
theorem claim_C4_chunk_partition (values : List String) (size : Nat) (hsize : 0 < size) :
    (chunkArray values size).flatten = values ∧
    (∀ b ∈ chunkArray values size, b.length ≤ size) ∧
    (∀ b ∈ (chunkArray values size).dropLast, b.length = size) ∧
    chunkArray ([] : List String) size = [] := by
  refine ⟨chunkGo_join size hsize values.length values (Nat.le_refl _),
    fun b hb => chunkGo_mem_length_le size values.length values b hb,
    fun b hb => chunkGo_dropLast_length size hsize values.length values b (Nat.le_refl _) hb,
    rfl⟩

theorem claim_C4_chunk_partition_witness :
    0 < 2 ∧
    ((chunkArray ["a", "b", "c", "d", "e"] 2).flatten = ["a", "b", "c", "d", "e"] ∧
      (∀ b ∈ chunkArray ["a", "b", "c", "d", "e"] 2, b.length ≤ 2) ∧
      (∀ b ∈ (chunkArray ["a", "b", "c", "d", "e"] 2).dropLast, b.length = 2) ∧
      chunkArray ([] : List String) 2 = []) :=
  ⟨by decide, claim_C4_chunk_partition ["a", "b", "c", "d", "e"] 2 (by decide)⟩

/-- C5 — Retry and backoff schedule (src/index.js:69-79): over any stream of
attempt outcomes, (1) if attempts `0..j-1` fail and attempt `j ≤ 3`
succeeds, the loop sleeps `RETRY_DELAY * (k + 1)` ms after each failed
attempt `k` (2000, 4000, ... — linear backoff) and returns the successful
result as is; (2) if attempts `0..3` all fail, it sleeps 2000, 4000 and
6000 ms and then fails with the message of src/index.js:77, embedding the
batch's 1-indexed ordinal (`batchNumber`, passed as `i + 1` by
src/index.js:96-103), the total batch count, and the last attempt's error
message. -/
theorem claim_C5_retry_backoff (attempt : Nat → Except String (List Json))
    (bn tb : Nat) (es : Nat → String) :
    (∀ (j : Nat) (v : List Json), j ≤ MAX_RETRIES →
      (∀ k, k < j → attempt k = .error (es k)) → attempt j = .ok v →
      translateBatchFrom attempt bn tb 0 =
        ((List.range j).map (fun k => RETRY_DELAY * (k + 1)), .ok v)) ∧
    ((∀ k, k ≤ MAX_RETRIES → attempt k = .error (es k)) →
      translateBatchFrom attempt bn tb 0 =
        ([2000, 4000, 6000], .error (batchFailMsg bn tb (es MAX_RETRIES)))) := by
  constructor
  · intro j v hj hfail hok
    have := translateBatchFrom_success_schedule attempt bn tb es v j 0
      (by omega) (fun k _ hk2 => hfail k (by omega)) (by simpa using hok)
    rw [this, List.range_eq_range']
  · intro hfail
    have := translateBatchFrom_exhaust_schedule attempt bn tb es hfail
    rw [this]
    rfl

theorem claim_C5_retry_backoff_witness :
    (translateBatchFrom (fun k => if k < 2 then .error "boom" else .ok [Json.str "x"]) 1 1 0
      = ([2000, 4000], .ok [Json.str "x"])) ∧
    (translateBatchFrom (fun _ => .error "boom") 2 5 0
      = ([2000, 4000, 6000], .error (batchFailMsg 2 5 "boom"))) := by
  constructor
  · have h := (claim_C5_retry_backoff
      (fun k => if k < 2 then .error "boom" else .ok [Json.str "x"]) 1 1
      (fun _ => "boom")).1 2 [Json.str "x"] (by decide)
      (fun k hk => by rw [if_pos hk]) (by rfl)
    rw [h]
    rfl
  · exact (claim_C5_retry_backoff (fun _ => .error "boom") 2 5
      (fun _ => "boom")).2 (fun k _ => rfl)

/-- C6 — Frame on non-translatable entries: any key outside the extracted
keys sequence (nested metadata objects, non-string scalars) looks up to the
same value in the rebuilt document as in the source — the `forEach` of
src/index.js:116-122 only assigns extracted keys. -/
theorem claim_C6_frame_non_translatable (arbData : List (String × Json))
    (tr : List Json) (lang : String) (k : String)
    (h : k ∉ originalKeys arbData) :
    jsGet (rebuildArb arbData (originalKeys arbData) tr lang) k = jsGet arbData k :=
  rebuildGo_frame tr lang (originalKeys arbData) 0 arbData k h

theorem claim_C6_frame_non_translatable_witness :
    ("@greeting" ∉ originalKeys [("greeting", Json.str "Hi"),
        ("@greeting", Json.obj [("description", Json.str "x")]), ("count", Json.num 5)]) ∧
    jsGet (rebuildArb [("greeting", Json.str "Hi"),
        ("@greeting", Json.obj [("description", Json.str "x")]), ("count", Json.num 5)]
      (originalKeys [("greeting", Json.str "Hi"),
        ("@greeting", Json.obj [("description", Json.str "x")]), ("count", Json.num 5)])
      [Json.str "Hola"] "es") "@greeting"
      = jsGet [("greeting", Json.str "Hi"),
        ("@greeting", Json.obj [("description", Json.str "x")]), ("count", Json.num 5)]
        "@greeting" :=
  ⟨by decide, claim_C6_frame_non_translatable
    [("greeting", Json.str "Hi"),
      ("@greeting", Json.obj [("description", Json.str "x")]), ("count", Json.num 5)]
    [Json.str "Hola"] "es" "@greeting" (by decide)⟩

/-- C7 — Response shape validation (src/index.js:62-64): a parsed payload
that is not an array, or an array whose length differs from the batch's,
makes the attempt fail with a shape error — in particular an array of
length 49 answering a 50-string batch — and such a failure is retryable:
the throw happens inside the `try`, so the `catch` of src/index.js:69-75
retries it like any attempt failure (last conjunct). -/
theorem claim_C7_shape_validation :
    (∀ (jsonParse : List Char → Option Json) (respText : Option (List Char)) (n : Nat)
      (xs : List Json),
      jsonParse (cleanFence (extractResponseText respText)) = some (Json.arr xs) →
      xs.length ≠ n →
      attemptOnce jsonParse respText n = .error (.shape n (some xs.length))) ∧
    (∀ (jsonParse : List Char → Option Json) (respText : Option (List Char)) (n : Nat)
      (v : Json),
      jsonParse (cleanFence (extractResponseText respText)) = some v →
      (∀ xs, v ≠ Json.arr xs) →
      attemptOnce jsonParse respText n = .error (.shape n none)) ∧
    (∀ xs : List Json, xs.length = 49 →
      validateShape (Json.arr xs) 50 = .error (.shape 50 (some 49))) ∧
    (∀ (attempt : Nat → Except String (List Json)) (bn tb : Nat) (e : String) (v : List Json),
      attempt 0 = .error e → attempt 1 = .ok v →
      translateBatchFrom attempt bn tb 0 = ([RETRY_DELAY * 1], .ok v)) := by
  refine ⟨?_, ?_, ?_, ?_⟩
  · intro jsonParse respText n xs hparse hlen
    unfold attemptOnce
    rw [hparse]
    simp [validateShape, hlen]
  · intro jsonParse respText n v hparse hne
    unfold attemptOnce
    rw [hparse]
    cases v with
    | arr xs => exact absurd rfl (hne xs)
    | str s => rfl
    | num m => rfl
    | bool b => rfl
    | null => rfl
    | obj kvs => rfl
  · intro xs h
    simp [validateShape, h]
  · intro attempt bn tb e v h0 h1
    rw [translateBatchFrom_retry attempt bn tb 0 e h0 (by decide),
      translateBatchFrom_ok attempt bn tb 1 v h1]

theorem claim_C7_shape_validation_witness :
    attemptOnce (fun _ => some (Json.arr [Json.str "a"])) none 50
      = .error (.shape 50 (some 1)) ∧
    validateShape (Json.arr (List.replicate 49 (Json.str "t"))) 50
      = .error (.shape 50 (some 49)) ∧
    translateBatchFrom (fun k => if k = 0 then .error "bad shape" else .ok []) 7 9 0
      = ([2000], .ok []) := by
  refine ⟨?_, ?_, ?_⟩
  · exact claim_C7_shape_validation.1 (fun _ => some (Json.arr [Json.str "a"])) none 50
      [Json.str "a"] rfl (by decide)
  · have h := claim_C7_shape_validation.2.2.1 (List.replicate 49 (Json.str "t")) (by simp)
    exact h
  · have h := claim_C7_shape_validation.2.2.2
      (fun k => if k = 0 then .error "bad shape" else .ok []) 7 9 "bad shape" [] rfl rfl
    rw [h]
    rfl

/-- C9 — Implicit: element types of the provider's response are never
validated (src/index.js:62-64 checks only `Array.isArray` and `.length`):
an array of the right length is accepted whatever its elements are, and the
reassembly of src/index.js:115-122 writes those elements verbatim into the
output document at the corresponding keys. -/
theorem claim_C9_no_element_validation :
    (∀ (xs : List Json) (n : Nat), xs.length = n →
      validateShape (Json.arr xs) n = .ok xs) ∧
    (∀ (arbData : List (String × Json)) (tr : List Json) (lang : String) (j : Nat)
      (hnd : (arbData.map Prod.fst).Nodup) (hj : j < (originalKeys arbData).length),
      (originalKeys arbData).get ⟨j, hj⟩ ≠ "@@locale" →
      jsGet (rebuildArb arbData (originalKeys arbData) tr lang)
          ((originalKeys arbData).get ⟨j, hj⟩)
        = some (tr.getD j Json.null)) := by
  constructor
  · intro xs n h
    simp [validateShape, h]
  · intro arbData tr lang j hnd hj hne
    have hkeysnd : (originalKeys arbData).Nodup := List.Nodup.filter _ hnd
    have := rebuildGo_write tr lang (originalKeys arbData) 0 arbData j hj hkeysnd hne
    rwa [Nat.zero_add] at this

theorem claim_C9_no_element_validation_witness :
    validateShape (Json.arr [Json.num 7, Json.null]) 2 = .ok [Json.num 7, Json.null] ∧
    jsGet (rebuildArb [("a", Json.str "x")] (originalKeys [("a", Json.str "x")])
        [Json.obj []] "fr")
      ((originalKeys [("a", Json.str "x")]).get ⟨0, by decide⟩)
      = some ([Json.obj []].getD 0 Json.null) :=
  ⟨claim_C9_no_element_validation.1 [Json.num 7, Json.null] 2 rfl,
    claim_C9_no_element_validation.2 [("a", Json.str "x")] [Json.obj []] "fr" 0
      (by decide) (by decide) (by decide)⟩

/-- C10 — Implicit: a provider response carrying no text part is substituted
with the literal `'[]'` before parsing (src/index.js:59), so for a non-empty
batch it parses to the empty array and is rejected as a length-mismatch
shape error (retryable), never as a parse error; the parse step never
receives an absent payload. -/
theorem claim_C10_absent_text_default (jsonParse : List Char → Option Json) (n : Nat)
    (hparse : jsonParse ("[]".toList) = some (Json.arr []))
    (hn : n ≠ 0) :
    extractResponseText none = "[]".toList ∧
    attemptOnce jsonParse none n = .error (.shape n (some 0)) := by
  refine ⟨rfl, ?_⟩
  unfold attemptOnce
  have hclean : cleanFence ("[]".toList) = "[]".toList := by decide
  rw [show extractResponseText none = "[]".toList from rfl, hclean, hparse]
  unfold validateShape
  simp only [List.length_nil]
  rw [if_neg (by omega)]

theorem claim_C10_absent_text_default_witness :
    extractResponseText none = "[]".toList ∧
    attemptOnce (fun t => if t = "[]".toList then some (Json.arr []) else none) none 50
      = .error (.shape 50 (some 0)) :=
  claim_C10_absent_text_default
    (fun t => if t = "[]".toList then some (Json.arr []) else none) 50
    (by simp) (by decide)

/-- C8 — Code-fence tolerance (src/index.js:23-36): wrapping a payload `s`
in fenced code-block markup — ``` or ```json, with optional surrounding
whitespace — parses identically to the bare payload, for any parse function.
The only assumption on `s` is that, trimmed, it does not itself open with a
fence marker; every JSON payload satisfies it, since no JSON value's text
starts with a backtick. -/
theorem claim_C8_code_fence_tolerance (jsonParse : List Char → Option Json)
    (s tag ws1 ws2 : List Char)
    (htag : tag = [] ∨ tag = jsonTag)
    (hws1 : ∀ c ∈ ws1, jsWs c) (hws2 : ∀ c ∈ ws2, jsWs c)
    (hs : (trimBoth s).take 3 ≠ fenceTicks) :
    parseJsonResponse jsonParse
        (ws1 ++ (fenceTicks ++ (tag ++ '\n' :: (s ++ '\n' :: fenceTicks))) ++ ws2)
      = parseJsonResponse jsonParse s := by
  unfold parseJsonResponse
  rw [cleanFence_wrapped tag s ws1 ws2 htag hws1 hws2, cleanFence_no_fence s hs]

theorem claim_C8_code_fence_tolerance_witness :
    parseJsonResponse
        (fun t => if t = "[1]".toList then some (Json.arr [Json.num 1]) else none)
        ([] ++ (fenceTicks ++ (jsonTag ++ '\n' :: ("[1]".toList ++ '\n' :: fenceTicks)))
          ++ [' ', '\n'])
      = parseJsonResponse
        (fun t => if t = "[1]".toList then some (Json.arr [Json.num 1]) else none)
        "[1]".toList :=
  claim_C8_code_fence_tolerance
    (fun t => if t = "[1]".toList then some (Json.arr [Json.num 1]) else none)
    "[1]".toList jsonTag [] [' ', '\n']
    (Or.inr rfl) (by decide) (by decide) (by decide)
